import Mathlib

/-!
Verification of the `monolithica` asset archiver.

The development shallowly embeds `src/lib.rs`:

* `AssetArhiver::create_archive` / `concat_files` / `check_path` become pure
  functions over an abstract filesystem value (`FsEntry` trees for the source
  directory, `PathState` for each destination path).  Strings are modelled as
  `List Char`; file bytes as `List Nat`.
* `AssetIndexer::new` / `locate_asset` become `parseIndex` / `locateAsset`.
  A Rust panic (a failing `unwrap` or an out-of-bounds index) is modelled as
  the parse returning `none`.
* The MIME guesser (`mime_guess::from_path(..).first()`) is an external
  collaborator and is passed in as a function `mimeF : List Char → List Char`
  from the full path of a file to the (possibly empty) content-type string.
* I/O errors (failing `read_dir`, `metadata`, `read`, `write`, `remove_file`)
  are environment failures outside the abstract filesystem model: in the
  model, reads and writes on the abstract state always succeed.
-/

namespace Monolithica

/-- Bytes of a file are modelled as natural numbers (`u8` values). -/
abbrev Byte := Nat

/-! ## Splitting primitives (embedding of `str::split("//")` and `str::lines`) -/

/-- Prepend a character to the first chunk of a split result
(helper for the scanning functions below). -/
def consHead (c : Char) : List (List Char) → List (List Char)
  | [] => [[c]]
  | t :: ts => (c :: t) :: ts

/-- Embedding of Rust `line.split("//")` (from `AssetIndexer::new`):
left-to-right scan, each non-overlapping occurrence of the two-character
delimiter `//` ends the current field. -/
def splitOnDelim : List Char → List (List Char)
  | [] => [[]]
  | [c] => [[c]]
  | c :: c2 :: rest =>
    if c = '/' ∧ c2 = '/' then [] :: splitOnDelim rest
    else consHead c (splitOnDelim (c2 :: rest))

/-- Split on every `'\n'` (first stage of Rust `str::lines`). -/
def splitNl : List Char → List (List Char)
  | [] => [[]]
  | c :: rest =>
    if c = '\n' then [] :: splitNl rest
    else consHead c (splitNl rest)

/-- Drop the final chunk when it is empty: Rust `lines` splits on the `'\n'`
terminator, so a trailing newline does not produce a final empty line. -/
def dropFinalEmpty : List (List Char) → List (List Char)
  | [] => []
  | [l] => if l.isEmpty then [] else [l]
  | l :: rest => l :: dropFinalEmpty rest

/-- Rust `lines` also strips one `'\r'` at the end of each line
(`\r\n` line terminators). -/
def stripCr (l : List Char) : List Char :=
  if l.getLast? = some '\r' then l.dropLast else l

/-- Embedding of Rust `content.lines()` as used in `AssetIndexer::new`. -/
def rustLines (cs : List Char) : List (List Char) :=
  (dropFinalEmpty (splitNl cs)).map stripCr

/-! ## Decimal numbers: `u64` formatting and parsing -/

/-- Strip one leading `'+'` (Rust's unsigned integer parser accepts it). -/
def stripPlus (s : List Char) : List Char :=
  match s with
  | c :: rest => if c = '+' then rest else s
  | [] => s

/-- Embedding of Rust `str::parse::<u64>()` (used on the offset and length
fields in `AssetIndexer::new`): an optional leading `'+'`, then at least one
ASCII digit, value below `2 ^ 64` (larger values overflow and fail). -/
def parseU64 (s : List Char) : Option Nat :=
  let ds := stripPlus s
  if ds.isEmpty then none
  else if ds.all Char.isDigit then
    let v := ds.foldl (fun n c => n * 10 + (c.toNat - 48)) 0
    if v < 2 ^ 64 then some v else none
  else none

/-- Fuelled digit emitter for `natToDec` (fuel keeps the recursion
structural, so that terms reduce definitionally). -/
def natToDecFuel : Nat → Nat → List Char → List Char
  | 0, n, acc => Nat.digitChar (n % 10) :: acc
  | fuel + 1, n, acc =>
    if n < 10 then Nat.digitChar n :: acc
    else natToDecFuel fuel (n / 10) (Nat.digitChar (n % 10) :: acc)

/-- Embedding of the Rust `Display` formatting of a `u64`
(`writeln!(.., "{}", offset)` in `concat_files`): plain decimal digits. -/
def natToDec (n : Nat) : List Char :=
  natToDecFuel n n []

/-! ## The read side: `Asset`, `AssetIndexer::new`, `locate_asset` -/

/-- Embedding of `struct Asset { offset: u64, len: u64, mime: String }`. -/
structure Asset where
  offset : Nat
  len : Nat
  mime : List Char
deriving DecidableEq, Repr

/-- The `HashMap<&str, Asset>` of `AssetIndexer`, modelled extensionally as a
function from keys to optional values. -/
def AssetMap := List Char → Option Asset

/-- `HashMap::insert`: the new binding shadows any earlier binding of the
same key. -/
def insertA (m : AssetMap) (p : List Char) (a : Asset) : AssetMap :=
  fun q => if q = p then some a else m q

/-- The empty map `HashMap::new()`. -/
def emptyA : AssetMap := fun _ => none

/-- One iteration of the loop body of `AssetIndexer::new`: split the line on
`//`, read `fields[0]` as the path, `fields[1]`/`fields[2]` as offset and
length, `fields[3]` as the mime string.  `none` models the panic of a failing
`unwrap` or of an out-of-bounds `fields[i]`; extra fields beyond the fourth
are ignored, exactly as in the source. -/
def parseLine (line : List Char) : Option (List Char × Asset) :=
  match splitOnDelim line with
  | path :: f1 :: f2 :: f3 :: _ =>
    match parseU64 f1, parseU64 f2 with
    | some off, some len => some (path, ⟨off, len, f3⟩)
    | _, _ => none
  | _ => none

/-- The loop of `AssetIndexer::new` over the lines of the index text. -/
def parseIndexGo (m : AssetMap) : List (List Char) → Option AssetMap
  | [] => some m
  | l :: ls =>
    match parseLine l with
    | some (p, a) => parseIndexGo (insertA m p a) ls
    | none => none

/-- Embedding of `AssetIndexer::new(content)`.  `none` models a panic while
parsing. -/
def parseIndex (content : List Char) : Option AssetMap :=
  parseIndexGo emptyA (rustLines content)

/-- Embedding of `AssetIndexer::locate_asset`: a plain `HashMap::get`, no
mutation, exact key equality. -/
def locateAsset (m : AssetMap) (path : List Char) : Option Asset :=
  m path

/-- Last record with the given path, scanning from the right: the value a
sequence of `HashMap::insert`s leaves behind for a key. -/
def findLast (rs : List (List Char × Asset)) (q : List Char) : Option Asset :=
  match rs with
  | [] => none
  | r :: rest =>
    match findLast rest q with
    | some a => some a
    | none => if r.1 = q then some r.2 else none

/-! ## The write side: the filesystem model and `concat_files` -/

/-- An entry of the source directory tree, as the traversal in
`concat_files` distinguishes them: a regular file with its bytes
(`path.is_file()`), a subdirectory with its own entries (`path.is_dir()`),
or anything else (skipped by the source). -/
inductive FsEntry where
  | file (content : List Byte)
  | dir (entries : List (List Char × FsEntry))
  | other

/-- A directory name is a single path component as the OS hands it to
`read_dir`: non-empty and without a path separator; we additionally require
that it contains no `'\n'` (a newline inside a filename would break the
line-oriented index format). -/
def validName (n : List Char) : Bool :=
  decide (n ≠ [] ∧ '/' ∉ n ∧ '\n' ∉ n)

/-- Names of the immediate entries of a directory. -/
def namesOf (es : List (List Char × FsEntry)) : List (List Char) :=
  es.map Prod.fst

mutual
/-- Well-formedness of a directory tree: every name is a valid component,
names are unique within each directory (as a real filesystem guarantees),
recursively. -/
def validEntries : List (List Char × FsEntry) → Bool
  | [] => true
  | (n, e) :: rest =>
    validName n && validEntry e && !(decide (n ∈ namesOf rest)) && validEntries rest

/-- Well-formedness of a single entry (recursive part of `validEntries`). -/
def validEntry : FsEntry → Bool
  | .file _ => true
  | .dir sub => validEntries sub
  | .other => true
end

/-- `PathBuf::push` as used by `read_dir`'s `DirEntry::path()`: append a
separator only when the directory path does not already end in one. -/
def joinPath (d n : List Char) : List Char :=
  if d.getLast? = some '/' then d ++ n else d ++ '/' :: n

/-- `src_dir.strip_suffix('/')` from `create_archive`: remove one trailing
separator if present. -/
def stripSlash (s : List Char) : List Char :=
  if s.getLast? = some '/' then s.dropLast else s

/-- One record of the index file, as `concat_files` writes it:
`path` is the entry path with the first `base_dir.len() + 1` characters
stripped, `offset` the running byte offset before the file's content,
`len` the file's byte length, `mime` the guessed content type. -/
structure IndexRec where
  path : List Char
  offset : Nat
  len : Nat
  mime : List Char
deriving DecidableEq, Repr

/-- The text of one index line: `writeln!(.., "{}//{}//{}//{}", path, offset,
file_len, mime)` without the trailing newline. -/
def renderRec (r : IndexRec) : List Char :=
  r.path ++ '/' :: '/' :: (natToDec r.offset ++ '/' :: '/' :: (natToDec r.len ++ '/' :: '/' :: r.mime))

/-- The full index file contents: each record's line, newline-terminated. -/
def renderIndex (rs : List IndexRec) : List Char :=
  (rs.map (fun r => renderRec r ++ ['\n'])).flatten

/-- Result of a `concat_files` traversal: the index records in write order,
the bytes appended to the blob, and the final value of the `offset` counter. -/
structure ConcatOut where
  recs : List IndexRec
  blob : List Byte
  off : Nat
deriving DecidableEq, Repr

mutual
/-- Embedding of the loop of `AssetArhiver::concat_files`.  `mimeF` is the
MIME-guessing collaborator applied to the full path; `baseLen` is
`base_dir.len()`, so each record's path is the entry's full path with the
first `baseLen + 1` characters removed; `dirPath` is the directory currently
traversed, `entries` its contents in enumeration order, `offset` the running
offset counter. -/
def concatFiles (mimeF : List Char → List Char) (baseLen : Nat) :
    List Char → List (List Char × FsEntry) → Nat → ConcatOut
  | _, [], offset => ⟨[], [], offset⟩
  | dirPath, (name, ent) :: rest, offset =>
    let head := concatOne mimeF baseLen (joinPath dirPath name) ent offset
    let tail := concatFiles mimeF baseLen dirPath rest head.off
    ⟨head.recs ++ tail.recs, head.blob ++ tail.blob, tail.off⟩

/-- Processing of one directory entry inside `concat_files`, `path` being the
entry's full path (`entry.path()`): a regular file is streamed to the blob
and gets one index line; a directory is recursed into immediately; anything
else is skipped. -/
def concatOne (mimeF : List Char → List Char) (baseLen : Nat) :
    List Char → FsEntry → Nat → ConcatOut
  | path, .file content, offset =>
    ⟨[⟨path.drop (baseLen + 1), offset, content.length, mimeF path⟩],
      content, offset + content.length⟩
  | path, .dir sub, offset => concatFiles mimeF baseLen path sub offset
  | _, .other, offset => ⟨[], [], offset⟩
end

/-! ## Destination validation and `create_archive` -/

/-- The state of one destination path, as `check_path` distinguishes it:
absent, a regular file (or a symlink resolving to one) with content,
a symlink, or an existing entry that is neither (`path.exists()` but not
`is_file`/`is_symlink`, e.g. a directory). -/
inductive PathState (α : Type) where
  | absent
  | regular (content : α)
  | symlink
  | dirOther
deriving DecidableEq, Repr

/-- The error kinds surfaced by `check_path` (`bail!("file already exists")`
and `bail!("path exists but not a file")`); the spec names them
`AlreadyExists` and `InvalidTarget`. -/
inductive ArchiveError where
  | alreadyExists
  | invalidTarget
deriving DecidableEq, Repr

/-- Embedding of `AssetArhiver::check_path`: a regular file or symlink is
either refused (`overwrite_existing == false`) or removed; afterwards any
path that still exists is refused as an invalid target.  On success the
returned state is the path's state after the validation (removal included). -/
def check_path {α : Type} (st : PathState α) (overwriteExisting : Bool) :
    Except ArchiveError (PathState α) :=
  match st with
  | .regular _ => if overwriteExisting then .ok .absent else .error .alreadyExists
  | .symlink => if overwriteExisting then .ok .absent else .error .alreadyExists
  | .dirOther => .error .invalidTarget
  | .absent => .ok .absent

/-- Outcome of `create_archive`: the returned `Result` together with the
final states of the two destination paths. -/
structure ArchiveResult where
  result : Except ArchiveError Unit
  blobSt : PathState (List Byte)
  idxSt : PathState (List Char)
deriving Repr

/-- Embedding of `AssetArhiver::create_archive`: validate the blob path, then
the index path (each validation may already have removed an existing file
when `overwrite_existing` is set), then create both output files and run
`concat_files` over the source tree starting at offset `0`, with
`src_dir` stripped of one trailing separator as the base directory. -/
def create_archive (srcDir : List Char) (tree : List (List Char × FsEntry))
    (mimeF : List Char → List Char)
    (blobSt : PathState (List Byte)) (idxSt : PathState (List Char))
    (overwriteExisting : Bool) : ArchiveResult :=
  match check_path blobSt overwriteExisting with
  | .error e => ⟨.error e, blobSt, idxSt⟩
  | .ok blobSt1 =>
    match check_path idxSt overwriteExisting with
    | .error e => ⟨.error e, blobSt1, idxSt⟩
    | .ok _ =>
      let base := stripSlash srcDir
      let out := concatFiles mimeF base.length base tree 0
      ⟨.ok (), .regular out.blob, .regular (renderIndex out.recs)⟩

/-! ## Specification-side vocabulary -/

/-- `FileAt entries rp c`: the directory tree `entries` contains, at the
relative (slash-joined) path `rp`, a regular file with content `c`. -/
inductive FileAt : List (List Char × FsEntry) → List Char → List Byte → Prop where
  | headFile (n : List Char) (c : List Byte) (rest : List (List Char × FsEntry)) :
      FileAt ((n, .file c) :: rest) n c
  | headDir (n : List Char) (sub : List (List Char × FsEntry)) (rest : List (List Char × FsEntry))
      (rp : List Char) (c : List Byte) :
      FileAt sub rp c → FileAt ((n, .dir sub) :: rest) (n ++ '/' :: rp) c
  | tail (x : List Char × FsEntry) (rest : List (List Char × FsEntry))
      (rp : List Char) (c : List Byte) :
      FileAt rest rp c → FileAt (x :: rest) rp c

/-- Sum of the `len` fields of a record list. -/
def sumLens (rs : List IndexRec) : Nat :=
  (rs.map IndexRec.len).sum

/-- The records' offsets, in write order, tile the byte range starting at
`off` without gaps or overlaps: each record starts exactly where the previous
one ended. -/
def contiguous : Nat → List IndexRec → Bool
  | _, [] => true
  | off, r :: rs => decide (r.offset = off) && contiguous (off + r.len) rs

/-- A field value that survives the `//`-delimited format in first position:
no `//` inside and no trailing `'/'` (which would merge with the following
delimiter). -/
def okField : List Char → Bool
  | [] => true
  | c :: rest =>
    (if c = '/' then
      match rest.head? with
      | some c2 => decide (c2 ≠ '/')
      | none => false
    else true) && okField rest

/-- No two adjacent slashes (enough for the final field of a line). -/
def noDoubleSlash : List Char → Bool
  | [] => true
  | c :: rest =>
    (if c = '/' then decide (rest.head? ≠ some '/') else true) && noDoubleSlash rest

/-- A well-behaved MIME string: it does not contain the delimiter, contains
no newline, and does not end in `'\r'` (true of every value `mime_guess`
produces, including the empty string). -/
def mimeOk (s : List Char) : Bool :=
  noDoubleSlash s && decide ('\n' ∉ s) && decide (s.getLast? ≠ some '\r')

/-- Relative-path concatenation: `joinRel d p` is `p` below directory `d`
(`d = []` meaning the archived root). -/
def joinRel (d p : List Char) : List Char :=
  if d.isEmpty then p else d ++ '/' :: p

/-- First path component: characters up to the first separator. -/
def firstComp (p : List Char) : List Char :=
  p.takeWhile (fun c => c ≠ '/')

/-- The full path of the directory at relative path `d` below `base`
(`d = []` meaning `base` itself), as the traversal builds it. -/
def dirOf (base d : List Char) : List Char :=
  if d.isEmpty then base else base ++ '/' :: d

/-- Conditions under which an index record survives the text round trip:
its path and mime fields do not collide with the `//` delimiter, contain no
newline, the mime value does not end in `'\r'`, and the numeric fields are
`u64` values. -/
def LineOk (r : IndexRec) : Prop :=
  okField r.path = true ∧ '\n' ∉ r.path ∧
    noDoubleSlash r.mime = true ∧ '\n' ∉ r.mime ∧ r.mime.getLast? ≠ some '\r' ∧
    r.offset < 2 ^ 64 ∧ r.len < 2 ^ 64

/-- Size bookkeeping for one traversal output: the final offset advances by
exactly the number of bytes written, the records tile the written range, and
their lengths sum to the bytes written. -/
def SizesOk (out : ConcatOut) (offset : Nat) : Prop :=
  out.off = offset + out.blob.length ∧ contiguous offset out.recs = true ∧
    sumLens out.recs = out.blob.length

/-- Correctness of one traversal output over `entries`, the contents of the
directory at relative path `relDir`: every file of the subtree yields a
record whose path is its relative path, whose length is its byte length and
whose offset points at its bytes inside the written blob; every record comes
from such a file with a MIME value produced by the resolver; record paths
are pairwise distinct. -/
def TraversalOk (mimeF : List Char → List Char)
    (entries : List (List Char × FsEntry)) (relDir : List Char)
    (offset : Nat) (out : ConcatOut) : Prop :=
  (∀ rp c, FileAt entries rp c →
    ∃ r, r ∈ out.recs ∧ r.path = joinRel relDir rp ∧ r.len = c.length ∧
      offset ≤ r.offset ∧ (out.blob.drop (r.offset - offset)).take r.len = c) ∧
  (∀ r ∈ out.recs,
    (∃ rp c, FileAt entries rp c ∧ r.path = joinRel relDir rp) ∧
      ∃ q, r.mime = mimeF q) ∧
  (out.recs.map IndexRec.path).Nodup

/-! # Lemmas -/

/-! ## Splitting on the `//` delimiter -/

theorem consHead_cons (c : Char) (t : List Char) (ts : List (List Char)) :
    consHead c (t :: ts) = (c :: t) :: ts := rfl

theorem splitOnDelim_ne_nil (cs : List Char) : splitOnDelim cs ≠ [] := by
  match cs with
  | [] => simp [splitOnDelim]
  | [c] => simp [splitOnDelim]
  | c :: c2 :: rest =>
    rw [splitOnDelim]
    split
    · simp
    · cases h : splitOnDelim (c2 :: rest) with
      | nil => exact absurd h (splitOnDelim_ne_nil (c2 :: rest))
      | cons t ts => simp [consHead]

theorem okField_cons {c : Char} {rest : List Char}
    (h : okField (c :: rest) = true) :
    okField rest = true ∧ (c = '/' → ∃ c2, rest.head? = some c2 ∧ c2 ≠ '/') := by
  rw [okField, Bool.and_eq_true] at h
  refine ⟨h.2, fun hc => ?_⟩
  subst hc
  simp only [if_pos rfl] at h
  cases hh : rest.head? with
  | none => rw [hh] at h; simp at h
  | some c2 =>
    rw [hh] at h
    exact ⟨c2, rfl, of_decide_eq_true h.1⟩

theorem splitOnDelim_cons_of_ne (c : Char) (cs : List Char)
    (h : ¬(c = '/' ∧ cs.head? = some '/')) :
    splitOnDelim (c :: cs) = consHead c (splitOnDelim cs) := by
  match cs with
  | [] => simp [splitOnDelim, consHead]
  | c2 :: rest =>
    rw [splitOnDelim]
    rw [if_neg]
    intro ⟨h1, h2⟩
    exact h ⟨h1, by simp [h2]⟩

theorem splitOnDelim_append_delim {a : List Char} (b : List Char)
    (ha : okField a = true) :
    splitOnDelim (a ++ '/' :: '/' :: b) = a :: splitOnDelim b := by
  match a with
  | [] => simp [splitOnDelim]
  | c :: a' =>
    obtain ⟨ha', hc⟩ := okField_cons ha
    have hne : ¬(c = '/' ∧ (a' ++ '/' :: '/' :: b).head? = some '/') := by
      rintro ⟨rfl, hh⟩
      obtain ⟨c2, hc2, hc2ne⟩ := hc rfl
      cases a' with
      | nil => simp at hc2
      | cons x a'' =>
        simp at hc2
        simp [hc2] at hh
        exact hc2ne hh
    rw [List.cons_append, splitOnDelim_cons_of_ne c _ hne,
      splitOnDelim_append_delim b ha', consHead_cons]

theorem splitOnDelim_of_noDoubleSlash {m : List Char}
    (h : noDoubleSlash m = true) : splitOnDelim m = [m] := by
  match m with
  | [] => simp [splitOnDelim]
  | c :: rest =>
    rw [noDoubleSlash, Bool.and_eq_true] at h
    have hne : ¬(c = '/' ∧ rest.head? = some '/') := by
      rintro ⟨rfl, hh⟩
      rw [if_pos rfl] at h
      exact of_decide_eq_true h.1 hh
    rw [splitOnDelim_cons_of_ne c rest hne,
      splitOnDelim_of_noDoubleSlash h.2, consHead_cons]

theorem okField_of_no_slash {a : List Char} (h : ∀ c ∈ a, c ≠ '/') :
    okField a = true := by
  induction a with
  | nil => rfl
  | cons c rest ih =>
    rw [okField, Bool.and_eq_true]
    refine ⟨?_, ih fun x hx => h x (List.mem_cons_of_mem c hx)⟩
    rw [if_neg (h c (List.mem_cons_self c rest))]

theorem noDoubleSlash_of_no_slash {a : List Char} (h : ∀ c ∈ a, c ≠ '/') :
    noDoubleSlash a = true := by
  induction a with
  | nil => rfl
  | cons c rest ih =>
    rw [noDoubleSlash, Bool.and_eq_true]
    refine ⟨?_, ih fun x hx => h x (List.mem_cons_of_mem c hx)⟩
    rw [if_neg (h c (List.mem_cons_self c rest))]

theorem okField_append {n rp : List Char} (hn : ∀ c ∈ n, c ≠ '/')
    (hne : n ≠ []) (hrpne : rp ≠ []) (hh : rp.head? ≠ some '/')
    (hrp : okField rp = true) :
    okField (n ++ '/' :: rp) = true := by
  match n with
  | [] => exact absurd rfl hne
  | [c] =>
    have hc : c ≠ '/' := hn c (by simp)
    rw [List.singleton_append, okField, Bool.and_eq_true]
    refine ⟨by rw [if_neg hc], ?_⟩
    rw [okField, Bool.and_eq_true]
    refine ⟨?_, hrp⟩
    rw [if_pos rfl]
    cases hr : rp.head? with
    | none => exact absurd (List.head?_eq_none_iff.mp hr) hrpne
    | some c2 =>
      simp only []
      apply decide_eq_true
      intro hcc
      exact hh (by rw [hr, hcc])
  | c :: c' :: n' =>
    have hc : c ≠ '/' := hn c (by simp)
    rw [List.cons_append, okField, Bool.and_eq_true]
    refine ⟨by rw [if_neg hc], ?_⟩
    exact okField_append (fun x hx => hn x (List.mem_cons_of_mem c hx)) (by simp) hrpne hh hrp

/-! ## Splitting into lines -/

theorem splitNl_append {l : List Char} (rest : List Char) (h : '\n' ∉ l) :
    splitNl (l ++ '\n' :: rest) = l :: splitNl rest := by
  induction l with
  | nil => simp [splitNl]
  | cons c l' ih =>
    have hc : ¬c = '\n' := fun hc => h (hc ▸ List.mem_cons_self c l')
    rw [List.cons_append, splitNl, if_neg hc,
      ih fun hx => h (List.mem_cons_of_mem c hx), consHead_cons]

theorem splitNl_flatten {ls : List (List Char)} (h : ∀ l ∈ ls, '\n' ∉ l) :
    splitNl ((ls.map (fun l => l ++ ['\n'])).flatten) = ls ++ [[]] := by
  induction ls with
  | nil => simp [splitNl]
  | cons l ls' ih =>
    rw [List.map_cons, List.flatten_cons, List.append_assoc, List.singleton_append,
      splitNl_append _ (h l (List.mem_cons_self l ls')),
      ih fun x hx => h x (List.mem_cons_of_mem l hx), List.cons_append]

theorem dropFinalEmpty_append (ls : List (List Char)) :
    dropFinalEmpty (ls ++ [[]]) = ls := by
  induction ls with
  | nil => simp [dropFinalEmpty]
  | cons l ls' ih =>
    cases ls' with
    | nil => simp [dropFinalEmpty]
    | cons m ms =>
      rw [List.cons_append, dropFinalEmpty, ih]
      simp

theorem rustLines_flatten {ls : List (List Char)}
    (h : ∀ l ∈ ls, '\n' ∉ l ∧ stripCr l = l) :
    rustLines ((ls.map (fun l => l ++ ['\n'])).flatten) = ls := by
  rw [rustLines, splitNl_flatten fun l hl => (h l hl).1, dropFinalEmpty_append]
  conv_rhs => rw [← List.map_id ls]
  exact List.map_congr_left fun l hl => (h l hl).2

/-! ## Decimal digits -/

theorem digitChar_facts {d : Nat} (h : d < 10) :
    (Nat.digitChar d).isDigit = true ∧ (Nat.digitChar d).toNat - 48 = d ∧
      Nat.digitChar d ≠ '+' ∧ Nat.digitChar d ≠ '/' ∧ Nat.digitChar d ≠ '\n' ∧
      Nat.digitChar d ≠ '\r' := by
  interval_cases d <;> exact ⟨rfl, rfl, by decide, by decide, by decide, by decide⟩

theorem natToDecFuel_spec {n : Nat} (fuel : Nat) (acc : List Char)
    (hn : 0 < n) (hf : n ≤ fuel) :
    natToDecFuel fuel n acc = ((Nat.digits 10 n).map Nat.digitChar).reverse ++ acc := by
  induction fuel generalizing n acc with
  | zero => omega
  | succ fuel ih =>
    rw [natToDecFuel]
    by_cases h10 : n < 10
    · rw [if_pos h10, Nat.digits_def' (by norm_num) hn,
        Nat.mod_eq_of_lt h10, Nat.div_eq_of_lt h10]
      simp
    · rw [if_neg h10, ih _ (by omega) (by omega)]
      conv_rhs => rw [Nat.digits_def' (by norm_num : (1:Nat) < 10) hn]
      simp

theorem natToDec_spec (n : Nat) :
    natToDec n =
      if n = 0 then ['0'] else ((Nat.digits 10 n).map Nat.digitChar).reverse := by
  rcases Nat.eq_zero_or_pos n with rfl | hn
  · rfl
  · rw [natToDec, natToDecFuel_spec n [] hn le_rfl, if_neg (by omega), List.append_nil]

theorem natToDec_chars {n : Nat} {c : Char} (h : c ∈ natToDec n) :
    ∃ d, d < 10 ∧ c = Nat.digitChar d := by
  rw [natToDec_spec] at h
  split at h
  · simp at h
    exact ⟨0, by omega, by rw [h]; rfl⟩
  next hne =>
    rw [List.mem_reverse, List.mem_map] at h
    obtain ⟨d, hd, rfl⟩ := h
    exact ⟨d, Nat.digits_lt_base (by norm_num) hd, rfl⟩

theorem natToDec_ne_nil (n : Nat) : natToDec n ≠ [] := by
  rw [natToDec_spec]
  split
  · simp
  next hne => simpa using Nat.digits_ne_nil_iff_ne_zero.mpr hne

theorem foldl_digits {ds : List Nat} (hds : ∀ d ∈ ds, d < 10) (a : Nat) :
    ((ds.map Nat.digitChar).reverse).foldl (fun n c => n * 10 + (c.toNat - 48)) a =
      a * 10 ^ ds.length + Nat.ofDigits 10 ds := by
  induction ds generalizing a with
  | nil => simp
  | cons d ds' ih =>
    rw [List.map_cons, List.reverse_cons, List.foldl_append,
      ih (fun x hx => hds x (List.mem_cons_of_mem d hx))]
    have hd := (digitChar_facts (hds d (List.mem_cons_self d ds'))).2.1
    simp only [List.foldl_cons, List.foldl_nil, hd, Nat.ofDigits_cons, List.length_cons]
    ring

theorem parseU64_natToDec {n : Nat} (h : n < 2 ^ 64) :
    parseU64 (natToDec n) = some n := by
  have hchars := @natToDec_chars n
  have hplus : stripPlus (natToDec n) = natToDec n := by
    cases hh : natToDec n with
    | nil => rfl
    | cons c rest =>
      obtain ⟨d, hd, rfl⟩ := hchars (c := c) (by rw [hh]; exact List.mem_cons_self _ _)
      rw [stripPlus, if_neg (digitChar_facts hd).2.2.1]
  rw [parseU64, hplus]
  simp only []
  rw [if_neg (by simpa using natToDec_ne_nil n)]
  rw [if_pos]
  swap
  · rw [List.all_eq_true]
    intro c hc
    obtain ⟨d, hd, rfl⟩ := hchars hc
    exact (digitChar_facts hd).1
  have hval : (natToDec n).foldl (fun n c => n * 10 + (c.toNat - 48)) 0 = n := by
    rw [natToDec_spec]
    rcases Nat.eq_zero_or_pos n with rfl | hn
    · rfl
    · rw [if_neg (by omega),
        foldl_digits (fun d hd => Nat.digits_lt_base (by norm_num) hd) 0,
        Nat.ofDigits_digits]
      ring
  rw [hval, if_pos h]

/-! ## The index parser -/

theorem parseIndexGo_none {l : List Char} {ls : List (List Char)}
    (hmem : l ∈ ls) (hbad : parseLine l = none) (m : AssetMap) :
    parseIndexGo m ls = none := by
  induction ls generalizing m with
  | nil => cases hmem
  | cons l' ls' ih =>
    rw [parseIndexGo]
    rcases List.mem_cons.mp hmem with rfl | hmem'
    · rw [hbad]
    · cases hl' : parseLine l' with
      | none => rfl
      | some pa => exact ih hmem' _

theorem parseIndexGo_isSome {ls : List (List Char)}
    (h : ∀ l ∈ ls, (parseLine l).isSome) (m : AssetMap) :
    (parseIndexGo m ls).isSome := by
  induction ls generalizing m with
  | nil => rfl
  | cons l ls' ih =>
    rw [parseIndexGo]
    cases hl : parseLine l with
    | none => exact absurd (hl ▸ h l (List.mem_cons_self l ls')) (by simp)
    | some pa => exact ih (fun x hx => h x (List.mem_cons_of_mem l hx)) _

theorem parseIndexGo_lookup {ls : List (List Char)} {m m' : AssetMap}
    (h : parseIndexGo m ls = some m') (q : List Char) :
    m' q =
      match findLast (ls.filterMap parseLine) q with
      | some a => some a
      | none => m q := by
  induction ls generalizing m with
  | nil =>
    rw [parseIndexGo] at h
    cases h
    rfl
  | cons l ls' ih =>
    rw [parseIndexGo] at h
    cases hl : parseLine l with
    | none => rw [hl] at h; cases h
    | some pa =>
      rw [hl] at h
      rw [List.filterMap_cons_some hl, findLast]
      have := ih h
      rw [this]
      cases findLast (ls'.filterMap parseLine) q with
      | some a => rfl
      | none =>
        simp only [insertA]
        by_cases hq : pa.1 = q
        · rw [if_pos hq, if_pos (by rw [hq])]
        · rw [if_neg hq, if_neg (fun hqq => hq (by rw [hqq]))]

theorem findLast_eq_none {rs : List (List Char × Asset)} {q : List Char}
    (h : ∀ r ∈ rs, r.1 ≠ q) : findLast rs q = none := by
  induction rs with
  | nil => rfl
  | cons r rest ih =>
    rw [findLast, ih fun x hx => h x (List.mem_cons_of_mem r hx),
      if_neg (h r (List.mem_cons_self r rest))]

theorem findLast_nodup {rs : List (List Char × Asset)} {r : List Char × Asset}
    (hnd : (rs.map Prod.fst).Nodup) (hmem : r ∈ rs) :
    findLast rs r.1 = some r.2 := by
  induction rs with
  | nil => cases hmem
  | cons r' rest ih =>
    rw [List.map_cons, List.nodup_cons] at hnd
    rcases List.mem_cons.mp hmem with rfl | hmem'
    · rw [findLast, findLast_eq_none, if_pos rfl]
      intro x hx hxq
      exact hnd.1 (hxq ▸ List.mem_map_of_mem Prod.fst hx)
    · rw [findLast, ih hnd.2 hmem']

/-! ## Rendered lines parse back -/

theorem renderRec_split {r : IndexRec} (hp : okField r.path = true)
    (hm : noDoubleSlash r.mime = true) :
    splitOnDelim (renderRec r) =
      [r.path, natToDec r.offset, natToDec r.len, r.mime] := by
  have hdig : ∀ k : Nat, okField (natToDec k) = true := fun k =>
    okField_of_no_slash fun c hc => by
      obtain ⟨d, hd, rfl⟩ := natToDec_chars hc
      exact (digitChar_facts hd).2.2.2.1
  rw [renderRec, splitOnDelim_append_delim _ hp,
    splitOnDelim_append_delim _ (hdig r.offset),
    splitOnDelim_append_delim _ (hdig r.len),
    splitOnDelim_of_noDoubleSlash hm]

theorem parseLine_render {r : IndexRec} (h : LineOk r) :
    parseLine (renderRec r) = some (r.path, ⟨r.offset, r.len, r.mime⟩) := by
  obtain ⟨hp, _, hm, _, _, ho, hl⟩ := h
  rw [parseLine, renderRec_split hp hm]
  simp only []
  rw [parseU64_natToDec ho, parseU64_natToDec hl]

theorem renderRec_flat (r : IndexRec) :
    renderRec r =
      (r.path ++ ['/', '/'] ++ natToDec r.offset ++ ['/', '/'] ++ natToDec r.len ++
        ['/', '/']) ++ r.mime := by
  rw [renderRec]
  simp

theorem renderRec_no_newline {r : IndexRec} (hp : '\n' ∉ r.path)
    (hm : '\n' ∉ r.mime) : '\n' ∉ renderRec r := by
  have hdig : ∀ k : Nat, '\n' ∉ natToDec k := by
    intro k hk
    obtain ⟨d, hd, hc⟩ := natToDec_chars hk
    exact (digitChar_facts hd).2.2.2.2.1 hc.symm
  intro hmem
  rw [renderRec_flat] at hmem
  rcases List.mem_append.mp hmem with h | h
  swap
  · exact hm h
  rcases List.mem_append.mp h with h | h
  swap
  · exact absurd h (by decide)
  rcases List.mem_append.mp h with h | h
  swap
  · exact hdig _ h
  rcases List.mem_append.mp h with h | h
  swap
  · exact absurd h (by decide)
  rcases List.mem_append.mp h with h | h
  swap
  · exact hdig _ h
  rcases List.mem_append.mp h with h | h
  · exact hp h
  · exact absurd h (by decide)

theorem renderRec_getLast {r : IndexRec} (hm : r.mime.getLast? ≠ some '\r') :
    (renderRec r).getLast? ≠ some '\r' := by
  rw [renderRec_flat]
  cases hmime : r.mime with
  | nil =>
    rw [List.append_nil, List.getLast?_append_of_ne_nil _ (by simp)]
    simp
  | cons c cs =>
    rw [List.getLast?_append_of_ne_nil _ (by simp), ← hmime]
    exact hm

theorem rustLines_renderIndex {rs : List IndexRec}
    (h : ∀ r ∈ rs, LineOk r) :
    rustLines (renderIndex rs) = rs.map renderRec := by
  have hmm : ((rs.map renderRec).map fun l => l ++ ['\n']) =
      rs.map fun r => renderRec r ++ ['\n'] := by
    rw [List.map_map]
    rfl
  rw [renderIndex, ← hmm]
  apply rustLines_flatten
  intro l hl
  rw [List.mem_map] at hl
  obtain ⟨r, hr, rfl⟩ := hl
  obtain ⟨_, hpn, _, hmn, hmr, _, _⟩ := h r hr
  exact ⟨renderRec_no_newline hpn hmn,
    by rw [stripCr, if_neg (renderRec_getLast hmr)]⟩

theorem filterMap_eq_map_of_some {α β : Type} {l : List α} {f : α → Option β}
    {g : α → β} (h : ∀ x ∈ l, f x = some (g x)) : l.filterMap f = l.map g := by
  induction l with
  | nil => rfl
  | cons a l' ih =>
    rw [List.filterMap_cons_some (h a (List.mem_cons_self a l')), List.map_cons,
      ih fun x hx => h x (List.mem_cons_of_mem a hx)]

theorem parseIndex_renderIndex {rs : List IndexRec}
    (h : ∀ r ∈ rs, LineOk r) :
    ∃ m, parseIndex (renderIndex rs) = some m ∧
      ∀ q, m q = findLast (rs.map fun r => (r.path, ⟨r.offset, r.len, r.mime⟩)) q := by
  have hlines := rustLines_renderIndex h
  have hsome : (parseIndexGo emptyA (rustLines (renderIndex rs))).isSome := by
    rw [hlines]
    apply parseIndexGo_isSome
    intro l hl
    rw [List.mem_map] at hl
    obtain ⟨r, hr, rfl⟩ := hl
    rw [parseLine_render (h r hr)]
    rfl
  rw [parseIndex]
  cases hgo : parseIndexGo emptyA (rustLines (renderIndex rs)) with
  | none => rw [hgo] at hsome; cases hsome
  | some m =>
    refine ⟨m, rfl, fun q => ?_⟩
    have hlook := parseIndexGo_lookup hgo q
    rw [hlines] at hlook
    have hfm : (rs.map renderRec).filterMap parseLine =
        rs.map fun r => (r.path, ⟨r.offset, r.len, r.mime⟩) := by
      rw [List.filterMap_map]
      exact filterMap_eq_map_of_some fun r hr => parseLine_render (h r hr)
    rw [hfm] at hlook
    rw [hlook]
    cases findLast (rs.map fun r => (r.path, ⟨r.offset, r.len, r.mime⟩)) q <;> rfl

/-! ## Offsets tile the blob -/

theorem sumLens_nil : sumLens [] = 0 := rfl

theorem sumLens_cons (r : IndexRec) (rs : List IndexRec) :
    sumLens (r :: rs) = r.len + sumLens rs := by
  rw [sumLens, List.map_cons, List.sum_cons, sumLens]

theorem sumLens_append (rs1 rs2 : List IndexRec) :
    sumLens (rs1 ++ rs2) = sumLens rs1 + sumLens rs2 := by
  rw [sumLens, List.map_append, List.sum_append, sumLens, sumLens]

theorem contiguous_append {rs1 rs2 : List IndexRec} {off : Nat}
    (h1 : contiguous off rs1 = true)
    (h2 : contiguous (off + sumLens rs1) rs2 = true) :
    contiguous off (rs1 ++ rs2) = true := by
  induction rs1 generalizing off with
  | nil =>
    rw [sumLens_nil, Nat.add_zero] at h2
    exact h2
  | cons r rs ih =>
    rw [contiguous, Bool.and_eq_true] at h1
    rw [List.cons_append, contiguous, Bool.and_eq_true]
    refine ⟨h1.1, ih h1.2 ?_⟩
    rw [sumLens_cons, ← Nat.add_assoc] at h2
    exact h2

theorem contiguous_bounds {rs : List IndexRec} {off : Nat}
    (h : contiguous off rs = true) :
    ∀ r ∈ rs, off ≤ r.offset ∧ r.offset + r.len ≤ off + sumLens rs := by
  induction rs generalizing off with
  | nil => intro r hr; cases hr
  | cons r0 rs' ih =>
    rw [contiguous, Bool.and_eq_true] at h
    have h0 : r0.offset = off := of_decide_eq_true h.1
    intro r hr
    rcases List.mem_cons.mp hr with rfl | hr'
    · rw [h0, sumLens_cons]
      omega
    · have := ih h.2 r hr'
      rw [sumLens_cons]
      omega

theorem concat_sizes_all (mimeF : List Char → List Char) (baseLen : Nat) :
    (∀ (dirPath : List Char) (entries : List (List Char × FsEntry)) (offset : Nat),
        SizesOk (concatFiles mimeF baseLen dirPath entries offset) offset) ∧
      ∀ (path : List Char) (ent : FsEntry) (offset : Nat),
        SizesOk (concatOne mimeF baseLen path ent offset) offset := by
  refine concatFiles.mutual_induct mimeF baseLen
    (fun dirPath entries offset => SizesOk (concatFiles mimeF baseLen dirPath entries offset) offset)
    (fun path ent offset => SizesOk (concatOne mimeF baseLen path ent offset) offset)
    ?_ ?_ ?_ ?_ ?_
  · intro path content offset
    refine ⟨by simp [concatOne], ?_, ?_⟩
    · rw [concatOne]
      simp [contiguous]
    · rw [concatOne]
      simp [sumLens_cons, sumLens_nil]
  · intro path sub offset ih
    rw [concatOne]
    exact ih
  · intro x offset
    exact ⟨by simp [concatOne], rfl, rfl⟩
  · intro x offset
    exact ⟨by simp [concatFiles], rfl, rfl⟩
  · intro dirPath name ent rest offset head ihHead ihRest
    have hh : head = concatOne mimeF baseLen (joinPath dirPath name) ent offset := rfl
    rw [hh] at ihRest
    obtain ⟨ho1, hc1, hs1⟩ := ihHead
    obtain ⟨ho2, hc2, hs2⟩ := ihRest
    simp only [concatFiles]
    refine ⟨?_, ?_, ?_⟩
    · simp only [List.length_append]
      omega
    · apply contiguous_append hc1
      rw [hs1, ← ho1]
      exact hc2
    · simp only [sumLens_append, List.length_append]
      omega

theorem concat_sizes (mimeF : List Char → List Char) (baseLen : Nat)
    (dirPath : List Char) (entries : List (List Char × FsEntry)) (offset : Nat) :
    SizesOk (concatFiles mimeF baseLen dirPath entries offset) offset :=
  (concat_sizes_all mimeF baseLen).1 dirPath entries offset

/-! ## Locating files in the tree -/

theorem fileAt_nil {rp : List Char} {c : List Byte} : ¬FileAt [] rp c := by
  intro h
  cases h

theorem fileAt_cons {x : List Char × FsEntry} {rest : List (List Char × FsEntry)}
    {rp : List Char} {c : List Byte} :
    FileAt (x :: rest) rp c ↔ FileAt [x] rp c ∨ FileAt rest rp c := by
  constructor
  · intro h
    cases h with
    | headFile => exact Or.inl (FileAt.headFile _ _ [])
    | headDir =>
      rename_i hsub
      exact Or.inl (FileAt.headDir _ _ [] _ _ hsub)
    | tail =>
      rename_i htail
      exact Or.inr htail
  · rintro (h | h)
    · cases h with
      | headFile => exact FileAt.headFile _ _ rest
      | headDir =>
        rename_i hsub
        exact FileAt.headDir _ _ rest _ _ hsub
      | tail =>
        rename_i htail
        cases htail
    · exact FileAt.tail x rest rp c h

theorem fileAt_single_file {n rp : List Char} {c0 c : List Byte} :
    FileAt [(n, .file c0)] rp c ↔ rp = n ∧ c = c0 := by
  constructor
  · intro h
    cases h with
    | headFile => exact ⟨rfl, rfl⟩
    | tail =>
      rename_i htail
      cases htail
  · rintro ⟨rfl, rfl⟩
    exact FileAt.headFile _ _ []

theorem fileAt_single_dir {n rp : List Char} {sub : List (List Char × FsEntry)}
    {c : List Byte} :
    FileAt [(n, .dir sub)] rp c ↔ ∃ rp', rp = n ++ '/' :: rp' ∧ FileAt sub rp' c := by
  constructor
  · intro h
    cases h with
    | headDir =>
      rename_i rp' hsub
      exact ⟨rp', rfl, hsub⟩
    | tail =>
      rename_i htail
      cases htail
  · rintro ⟨rp', rfl, hsub⟩
    exact FileAt.headDir _ _ [] _ _ hsub

theorem fileAt_single_other {n rp : List Char} {c : List Byte} :
    ¬FileAt [(n, .other)] rp c := by
  intro h
  cases h with
  | tail =>
    rename_i htail
    cases htail

theorem validEntries_cons {n : List Char} {e : FsEntry}
    {rest : List (List Char × FsEntry)}
    (h : validEntries ((n, e) :: rest) = true) :
    validName n = true ∧ validEntry e = true ∧ n ∉ namesOf rest ∧
      validEntries rest = true := by
  rw [validEntries] at h
  simp only [Bool.and_eq_true, Bool.not_eq_true'] at h
  exact ⟨h.1.1.1, h.1.1.2, of_decide_eq_false h.1.2, h.2⟩

theorem validName_elim {n : List Char} (h : validName n = true) :
    n ≠ [] ∧ '/' ∉ n ∧ '\n' ∉ n := of_decide_eq_true h

theorem firstComp_of_no_slash {n : List Char} (h : '/' ∉ n) : firstComp n = n := by
  rw [firstComp, List.takeWhile_eq_self_iff]
  intro x hx
  exact decide_eq_true fun hxx => h (hxx ▸ hx)

theorem firstComp_append {n x : List Char} (h : '/' ∉ n) :
    firstComp (n ++ '/' :: x) = n := by
  induction n with
  | nil => simp [firstComp, List.takeWhile]
  | cons c n' ih =>
    have hc : c ≠ '/' := fun hcc => h (hcc ▸ List.mem_cons_self c n')
    have ih' := ih fun hx => h (List.mem_cons_of_mem c hx)
    rw [firstComp] at ih' ⊢
    rw [List.cons_append, List.takeWhile_cons, if_pos (by simp [hc]), ih']

theorem fileAt_firstComp {es : List (List Char × FsEntry)} {rp : List Char}
    {c : List Byte} (hv : validEntries es = true) (h : FileAt es rp c) :
    ∃ n, n ∈ namesOf es ∧ firstComp rp = n := by
  induction es with
  | nil => exact absurd h fileAt_nil
  | cons x rest ih =>
    obtain ⟨n, e⟩ := x
    obtain ⟨hn, he, hnotin, hrest⟩ := validEntries_cons hv
    have hslash := (validName_elim hn).2.1
    rcases fileAt_cons.mp h with h1 | h1
    · cases e with
      | file c0 =>
        obtain ⟨rfl, hc⟩ := fileAt_single_file.mp h1
        exact ⟨rp, List.mem_cons_self rp (namesOf rest), firstComp_of_no_slash hslash⟩
      | dir sub =>
        obtain ⟨rp', rfl, hsub⟩ := fileAt_single_dir.mp h1
        exact ⟨n, List.mem_cons_self n (namesOf rest), firstComp_append hslash⟩
      | other => exact absurd h1 fileAt_single_other
    · obtain ⟨n', hn', hfc⟩ := ih hrest h1
      exact ⟨n', List.mem_cons_of_mem n hn', hfc⟩

theorem fileAt_wf {es : List (List Char × FsEntry)} {rp : List Char}
    {c : List Byte} (hv : validEntries es = true) (h : FileAt es rp c) :
    rp ≠ [] ∧ '\n' ∉ rp ∧ okField rp = true ∧ rp.head? ≠ some '/' := by
  induction h with
  | headFile n c rest =>
    obtain ⟨hn, he, hnotin, hrest⟩ := validEntries_cons hv
    obtain ⟨hne, hslash, hnl⟩ := validName_elim hn
    refine ⟨hne, hnl, okField_of_no_slash fun x hx hxx => hslash (hxx ▸ hx), ?_⟩
    cases n with
    | nil => exact absurd rfl hne
    | cons c0 n' =>
      rw [List.head?_cons]
      intro hcontra
      have hc0 : c0 = '/' := by injection hcontra
      apply hslash
      rw [hc0]
      exact List.mem_cons_self '/' n'
  | headDir n sub rest rp' c hsub ih =>
    obtain ⟨hn, he, hnotin, hrest⟩ := validEntries_cons hv
    rw [validEntry] at he
    obtain ⟨hne', hnl', hok', hhd'⟩ := ih he
    obtain ⟨hne, hslash, hnl⟩ := validName_elim hn
    refine ⟨by simp [hne], ?_, ?_, ?_⟩
    · intro hmem
      rcases List.mem_append.mp hmem with hx | hx
      · exact hnl hx
      · rcases List.mem_cons.mp hx with hx | hx
        · exact absurd hx (by decide)
        · exact hnl' hx
    · exact okField_append (fun x hx hxx => hslash (hxx ▸ hx)) hne hne' hhd' hok'
    · cases n with
      | nil => exact absurd rfl hne
      | cons c0 n' =>
        rw [List.cons_append, List.head?_cons]
        intro hcontra
        have hc0 : c0 = '/' := by injection hcontra
        apply hslash
        rw [hc0]
        exact List.mem_cons_self '/' n'
  | tail x rest rp c htail ih =>
    obtain ⟨n, e⟩ := x
    exact ih (validEntries_cons hv).2.2.2

/-! ## Path algebra -/

theorem joinRel_nil (p : List Char) : joinRel [] p = p := rfl

theorem joinRel_inj {d x y : List Char} (h : joinRel d x = joinRel d y) : x = y := by
  rw [joinRel, joinRel] at h
  split at h
  · exact h
  · have h2 := List.append_cancel_left h
    simpa using h2

theorem joinRel_assoc {d n rp : List Char} (hn : n ≠ []) :
    joinRel d (n ++ '/' :: rp) = joinRel (joinRel d n) rp := by
  rw [joinRel, joinRel, joinRel]
  by_cases hd : d.isEmpty
  · rw [if_pos hd, if_pos hd, if_neg (by simpa using hn)]
  · rw [if_neg hd, if_neg hd, if_neg (by simp [hd])]
    simp

theorem joinRel_getLast {d n : List Char} (hn : n ≠ []) :
    (joinRel d n).getLast? = n.getLast? := by
  rw [joinRel]
  split
  · rfl
  · have hsplit : d ++ '/' :: n = (d ++ ['/']) ++ n := by simp
    rw [hsplit, List.getLast?_append_of_ne_nil _ hn]

theorem joinRel_ne_nil {d n : List Char} (hn : n ≠ []) : joinRel d n ≠ [] := by
  rw [joinRel]
  split
  · exact hn
  · simp

theorem dirOf_nil (base : List Char) : dirOf base [] = base := rfl

theorem dirOf_join {base d n : List Char} (hb : base.getLast? ≠ some '/')
    (hd : d.getLast? ≠ some '/') (hn : n ≠ []) :
    joinPath (dirOf base d) n = dirOf base (joinRel d n) := by
  rw [joinPath, dirOf, joinRel, dirOf]
  by_cases hde : d.isEmpty
  · rw [if_pos hde, if_pos hde, if_neg hb, if_neg (by simpa using hn)]
  · have hdsplit : base ++ '/' :: d = (base ++ ['/']) ++ d := by simp
    rw [if_neg hde, if_neg hde,
      if_neg (by rw [hdsplit, List.getLast?_append_of_ne_nil _ (by simpa using hde)]; exact hd),
      if_neg (by simp [hde])]
    simp

theorem drop_dirOf {base d n : List Char} (hb : base.getLast? ≠ some '/')
    (hd : d.getLast? ≠ some '/') (hn : n ≠ []) :
    (joinPath (dirOf base d) n).drop (base.length + 1) = joinRel d n := by
  rw [dirOf_join hb hd hn, dirOf,
    if_neg (by rw [List.isEmpty_iff]; exact joinRel_ne_nil hn)]
  have hsplit : base ++ '/' :: joinRel d n = (base ++ ['/']) ++ joinRel d n := by
    simp
  have hlen : base.length + 1 = (base ++ ['/']).length := by simp
  rw [hsplit, hlen, List.drop_left]

/-! ## Traversal correctness -/

theorem take_drop_append_left {l1 l2 : List Byte} {i k : Nat}
    (h : i + k ≤ l1.length) :
    ((l1 ++ l2).drop i).take k = (l1.drop i).take k := by
  rw [List.drop_append_of_le_length (by omega),
    List.take_append_of_le_length (by simp; omega)]

theorem drop_append_left (l1 l2 : List Byte) (k : Nat) :
    (l1 ++ l2).drop (l1.length + k) = l2.drop k := by
  rw [← List.drop_drop, List.drop_left]

theorem validEntries_single {n : List Char} {e : FsEntry}
    (hn : validName n = true) (he : validEntry e = true) :
    validEntries [(n, e)] = true := by
  rw [validEntries]
  simp [hn, he, namesOf, validEntries]

theorem concat_complete_all (mimeF : List Char → List Char) (base : List Char)
    (hb : base.getLast? ≠ some '/') :
    (∀ (dirPath : List Char) (entries : List (List Char × FsEntry)) (offset : Nat),
      ∀ relDir, dirPath = dirOf base relDir → relDir.getLast? ≠ some '/' →
        validEntries entries = true →
        TraversalOk mimeF entries relDir offset
          (concatFiles mimeF base.length dirPath entries offset)) ∧
    (∀ (path : List Char) (ent : FsEntry) (offset : Nat),
      ∀ relDir name, path = joinPath (dirOf base relDir) name →
        relDir.getLast? ≠ some '/' → validName name = true →
        validEntry ent = true →
        TraversalOk mimeF [(name, ent)] relDir offset
          (concatOne mimeF base.length path ent offset)) := by
  refine concatFiles.mutual_induct mimeF base.length
    (fun dirPath entries offset =>
      ∀ relDir, dirPath = dirOf base relDir → relDir.getLast? ≠ some '/' →
        validEntries entries = true →
        TraversalOk mimeF entries relDir offset
          (concatFiles mimeF base.length dirPath entries offset))
    (fun path ent offset =>
      ∀ relDir name, path = joinPath (dirOf base relDir) name →
        relDir.getLast? ≠ some '/' → validName name = true →
        validEntry ent = true →
        TraversalOk mimeF [(name, ent)] relDir offset
          (concatOne mimeF base.length path ent offset))
    ?_ ?_ ?_ ?_ ?_
  · -- a regular file entry
    intro path content offset relDir name hpath hrd hn he
    obtain ⟨hne, hslash, hnl⟩ := validName_elim hn
    have hrel : path.drop (base.length + 1) = joinRel relDir name := by
      rw [hpath]
      exact drop_dirOf hb hrd hne
    rw [concatOne]
    refine ⟨?_, ?_, ?_⟩
    · intro rp c hf
      obtain ⟨rfl, rfl⟩ := fileAt_single_file.mp hf
      refine ⟨_, List.mem_singleton_self _, ?_, rfl, le_rfl, ?_⟩
      · exact hrel
      · simp
    · intro r hr
      rw [List.mem_singleton] at hr
      subst hr
      exact ⟨⟨name, content, FileAt.headFile name content [], hrel⟩, path, rfl⟩
    · simp
  · -- a directory entry
    intro path sub offset ih relDir name hpath hrd hn he
    obtain ⟨hne, hslash, hnl⟩ := validName_elim hn
    have hlast : (joinRel relDir name).getLast? ≠ some '/' := by
      rw [joinRel_getLast hne]
      intro hcontra
      exact hslash (List.mem_of_mem_getLast? hcontra)
    have hsub : validEntries sub = true := by
      rw [validEntry] at he
      exact he
    have hpath' : path = dirOf base (joinRel relDir name) := by
      rw [hpath]
      exact dirOf_join hb hrd hne
    obtain ⟨ihA, ihB, ihC⟩ := ih (joinRel relDir name) hpath' hlast hsub
    rw [concatOne]
    refine ⟨?_, ?_, ihC⟩
    · intro rp c hf
      obtain ⟨rp', rfl, hsub'⟩ := fileAt_single_dir.mp hf
      obtain ⟨r, hrmem, hrpath, hrlen, hroff, hrslice⟩ := ihA rp' c hsub'
      exact ⟨r, hrmem, by rw [hrpath, joinRel_assoc hne], hrlen, hroff, hrslice⟩
    · intro r hr
      obtain ⟨⟨rp', c, hf', hrpath⟩, hq⟩ := ihB r hr
      refine ⟨⟨name ++ '/' :: rp', c, ?_, ?_⟩, hq⟩
      · exact fileAt_single_dir.mpr ⟨rp', rfl, hf'⟩
      · rw [hrpath, joinRel_assoc hne]
  · -- an entry that is neither a file nor a directory
    intro x offset relDir name hpath hrd hn he
    rw [concatOne]
    exact ⟨fun rp c hf => absurd hf fileAt_single_other, fun r hr => absurd hr (by simp),
      by simp⟩
  · -- end of a directory listing
    intro x offset relDir hpath hrd hv
    rw [concatFiles]
    exact ⟨fun rp c hf => absurd hf fileAt_nil, fun r hr => absurd hr (by simp), by simp⟩
  · -- one entry followed by the rest of the listing
    intro dirPath name ent rest offset head ihHead ihRest relDir hpath hrd hv
    have hh : head = concatOne mimeF base.length (joinPath dirPath name) ent offset := rfl
    obtain ⟨hn, he, hnotin, hrest⟩ := validEntries_cons hv
    have hSh : SizesOk (concatOne mimeF base.length (joinPath dirPath name) ent offset) offset :=
      (concat_sizes_all mimeF base.length).2 _ ent offset
    have hSt : SizesOk (concatFiles mimeF base.length dirPath rest head.off) head.off :=
      (concat_sizes_all mimeF base.length).1 dirPath rest head.off
    obtain ⟨hA1, hB1, hC1⟩ :=
      ihHead relDir name (by rw [hpath]) hrd hn he
    obtain ⟨hA2, hB2, hC2⟩ := ihRest relDir hpath hrd hrest
    rw [hh] at hSt hA2 hB2 hC2
    obtain ⟨hoff1, hcont1, hsum1⟩ := hSh
    obtain ⟨hoff2, hcont2, hsum2⟩ := hSt
    set A := concatOne mimeF base.length (joinPath dirPath name) ent offset with hAdef
    set B := concatFiles mimeF base.length dirPath rest A.off with hBdef
    have hbounds1 := contiguous_bounds hcont1
    have hbounds2 := contiguous_bounds hcont2
    have hgoal : concatFiles mimeF base.length dirPath ((name, ent) :: rest) offset =
        ⟨A.recs ++ B.recs, A.blob ++ B.blob, B.off⟩ := by
      rw [concatFiles]
    rw [hgoal]
    -- names appearing below an entry determine disjointness of the record lists
    have hfc1 : ∀ rp (c : List Byte), FileAt [(name, ent)] rp c → firstComp rp = name := by
      intro rp c hf
      obtain ⟨n', hn', hfc⟩ := fileAt_firstComp (validEntries_single hn he) hf
      simp [namesOf] at hn'
      rw [hfc, hn']
    have hfc2 : ∀ rp (c : List Byte), FileAt rest rp c → firstComp rp ∈ namesOf rest := by
      intro rp c hf
      obtain ⟨n', hn', hfc⟩ := fileAt_firstComp hrest hf
      rw [hfc]
      exact hn'
    refine ⟨?_, ?_, ?_⟩
    · intro rp c hf
      rcases fileAt_cons.mp hf with hf1 | hf1
      · obtain ⟨r, hrmem, hrpath, hrlen, hroff, hrslice⟩ := hA1 rp c hf1
        refine ⟨r, List.mem_append_left _ hrmem, hrpath, hrlen, hroff, ?_⟩
        have hrb := hbounds1 r hrmem
        rw [take_drop_append_left (by omega)]
        exact hrslice
      · obtain ⟨r, hrmem, hrpath, hrlen, hroff, hrslice⟩ := hA2 rp c hf1
        refine ⟨r, List.mem_append_right _ hrmem, hrpath, hrlen, by omega, ?_⟩
        have hsplit : r.offset - offset = A.blob.length + (r.offset - A.off) := by
          omega
        rw [hsplit, drop_append_left]
        exact hrslice
    · intro r hr
      rcases List.mem_append.mp hr with hr1 | hr1
      · obtain ⟨⟨rp, c, hf', hrpath⟩, hq⟩ := hB1 r hr1
        exact ⟨⟨rp, c, fileAt_cons.mpr (Or.inl hf'), hrpath⟩, hq⟩
      · obtain ⟨⟨rp, c, hf', hrpath⟩, hq⟩ := hB2 r hr1
        exact ⟨⟨rp, c, fileAt_cons.mpr (Or.inr hf'), hrpath⟩, hq⟩
    · rw [List.map_append, List.nodup_append]
      refine ⟨hC1, hC2, ?_⟩
      intro p hp1 hp2
      rw [List.mem_map] at hp1 hp2
      obtain ⟨r1, hr1, hp1⟩ := hp1
      obtain ⟨r2, hr2, hp2⟩ := hp2
      obtain ⟨⟨rp1, c1, hf1, hpath1⟩, _⟩ := hB1 r1 hr1
      obtain ⟨⟨rp2, c2, hf2, hpath2⟩, _⟩ := hB2 r2 hr2
      have hrp12 : rp1 = rp2 := by
        apply joinRel_inj (d := relDir)
        rw [← hpath1, ← hpath2, hp1, hp2]
      have h1 := hfc1 rp1 c1 hf1
      have h2 := hfc2 rp2 c2 hf2
      rw [← hrp12, h1] at h2
      exact hnotin h2

theorem concat_complete (mimeF : List Char → List Char) (base : List Char)
    (hb : base.getLast? ≠ some '/')
    (entries : List (List Char × FsEntry)) (offset : Nat)
    (hv : validEntries entries = true) :
    TraversalOk mimeF entries [] offset
      (concatFiles mimeF base.length base entries offset) :=
  (concat_complete_all mimeF base hb).1 base entries offset []
    (dirOf_nil base).symm (by simp) hv

/-! ## From `create_archive` to its traversal output -/

theorem create_archive_ok {srcDir : List Char} {tree : List (List Char × FsEntry)}
    {mimeF : List Char → List Char} {bst : PathState (List Byte)}
    {ist : PathState (List Char)} {ow : Bool} {blob : List Byte} {idxC : List Char}
    (h : create_archive srcDir tree mimeF bst ist ow =
      ⟨.ok (), .regular blob, .regular idxC⟩) :
    blob = (concatFiles mimeF (stripSlash srcDir).length (stripSlash srcDir) tree 0).blob ∧
      idxC = renderIndex (concatFiles mimeF (stripSlash srcDir).length (stripSlash srcDir) tree 0).recs := by
  rw [create_archive] at h
  cases h1 : check_path bst ow with
  | error e =>
    rw [h1] at h
    simp [ArchiveResult.mk.injEq] at h
  | ok b1 =>
    rw [h1] at h
    cases h2 : check_path ist ow with
    | error e =>
      rw [h2] at h
      simp [ArchiveResult.mk.injEq] at h
    | ok i1 =>
      rw [h2] at h
      simp only [ArchiveResult.mk.injEq, PathState.regular.injEq] at h
      exact ⟨h.2.1.symm, h.2.2.symm⟩

theorem mimeOk_elim {s : List Char} (h : mimeOk s = true) :
    noDoubleSlash s = true ∧ '\n' ∉ s ∧ s.getLast? ≠ some '\r' := by
  rw [mimeOk, Bool.and_eq_true, Bool.and_eq_true] at h
  exact ⟨h.1.1, of_decide_eq_true h.1.2, of_decide_eq_true h.2⟩

/-! # Claims -/

/-- Claim C1.  Round trip: for every regular file `f` under the source
directory, after `create_archive(D, blob, idx, true)` succeeds and the index
text is parsed with `AssetIndexer::new`, looking up `f`'s relative path
returns an `Asset` whose `len` equals `f`'s byte length, and the blob's bytes
in `[offset, offset + len)` equal `f`'s content exactly.  Hypotheses: the
source tree is a well-formed filesystem tree (non-empty unique names without
separators or newlines), the MIME resolver output never collides with the
index format, the normalised source path does not end in a separator, and
the archive is within `u64` range. -/
theorem c1_round_trip (srcDir : List Char) (tree : List (List Char × FsEntry))
    (mimeF : List Char → List Char) (bst : PathState (List Byte))
    (ist : PathState (List Char)) (blob : List Byte) (idxC : List Char)
    (hv : validEntries tree = true)
    (hm : ∀ p, mimeOk (mimeF p) = true)
    (hsrc : (stripSlash srcDir).getLast? ≠ some '/')
    (hcap : blob.length < 2 ^ 64)
    (h : create_archive srcDir tree mimeF bst ist true =
      ⟨.ok (), .regular blob, .regular idxC⟩) :
    ∃ m, parseIndex idxC = some m ∧
      ∀ rp c, FileAt tree rp c →
        ∃ a, locateAsset m rp = some a ∧ a.len = c.length ∧
          (blob.drop a.offset).take a.len = c := by
  obtain ⟨hblob, hidx⟩ := create_archive_ok h
  obtain ⟨hoff, hcont, hsum⟩ :=
    concat_sizes mimeF (stripSlash srcDir).length (stripSlash srcDir) tree 0
  obtain ⟨hA, hB, hC⟩ := concat_complete mimeF (stripSlash srcDir) hsrc tree 0 hv
  set out := concatFiles mimeF (stripSlash srcDir).length (stripSlash srcDir) tree 0
    with hout
  have hbounds := contiguous_bounds hcont
  have hlineok : ∀ r ∈ out.recs, LineOk r := by
    intro r hr
    obtain ⟨⟨rp, c, hf, hpath⟩, q, hq⟩ := hB r hr
    rw [joinRel_nil] at hpath
    obtain ⟨_, hnl, hok, _⟩ := fileAt_wf hv hf
    obtain ⟨hmm1, hmm2, hmm3⟩ := mimeOk_elim (hm q)
    have hrb := hbounds r hr
    rw [hsum] at hrb
    rw [← hblob] at hrb
    refine ⟨by rw [hpath]; exact hok, by rw [hpath]; exact hnl, ?_, ?_, ?_, ?_, ?_⟩
    · rw [hq]; exact hmm1
    · rw [hq]; exact hmm2
    · rw [hq]; exact hmm3
    · omega
    · omega
  obtain ⟨m, hpm, hlook⟩ := parseIndex_renderIndex hlineok
  refine ⟨m, by rw [hidx]; exact hpm, ?_⟩
  intro rp c hf
  obtain ⟨r, hrmem, hrpath, hrlen, _, hrslice⟩ := hA rp c hf
  rw [joinRel_nil] at hrpath
  have hnd : ((out.recs.map fun r => ((r.path, ⟨r.offset, r.len, r.mime⟩) : List Char × Asset)).map
      Prod.fst).Nodup := by
    rw [List.map_map]
    exact hC
  have hfl := findLast_nodup hnd
    (List.mem_map_of_mem (fun r => ((r.path, ⟨r.offset, r.len, r.mime⟩) : List Char × Asset)) hrmem)
  refine ⟨⟨r.offset, r.len, r.mime⟩, ?_, hrlen, ?_⟩
  · rw [locateAsset, hlook rp, ← hrpath]
    exact hfl
  · rw [hblob]
    simpa using hrslice

/-- Witness for C1 on a concrete two-level tree: `d/a` (2 bytes) and
`d/b/c` (1 byte). -/
theorem c1_round_trip_witness :
    ∃ m, parseIndex
        ['a','/','/','0','/','/','2','/','/','t','x','\n',
         'b','/','c','/','/','2','/','/','1','/','/','t','x','\n'] = some m ∧
      ∀ rp c,
        FileAt [(['a'], .file [7,8]), (['b'], .dir [(['c'], .file [9])])] rp c →
        ∃ a, locateAsset m rp = some a ∧ a.len = c.length ∧
          (([7,8,9].drop a.offset).take a.len = c) :=
  c1_round_trip ['d'] [(['a'], .file [7,8]), (['b'], .dir [(['c'], .file [9])])]
    (fun _ => ['t','x']) .absent .absent [7,8,9]
    ['a','/','/','0','/','/','2','/','/','t','x','\n',
     'b','/','c','/','/','2','/','/','1','/','/','t','x','\n']
    (by decide) (by intro p; show mimeOk ['t','x'] = true; decide) (by decide) (by decide) rfl

/-- Claim C2.  For every successful build, the sum of all assets' `len`
fields equals the blob's size, and the assets in write order tile
`[0, blobSize)` without gaps or overlaps: each asset's offset is the sum of
the lengths of all previously written assets. -/
theorem c2_size_coverage (srcDir : List Char) (tree : List (List Char × FsEntry))
    (mimeF : List Char → List Char) (bst : PathState (List Byte))
    (ist : PathState (List Char)) (ow : Bool) (blob : List Byte) (idxC : List Char)
    (h : create_archive srcDir tree mimeF bst ist ow =
      ⟨.ok (), .regular blob, .regular idxC⟩) :
    ∃ recs : List IndexRec, idxC = renderIndex recs ∧
      sumLens recs = blob.length ∧ contiguous 0 recs = true := by
  obtain ⟨hblob, hidx⟩ := create_archive_ok h
  obtain ⟨hoff, hcont, hsum⟩ :=
    concat_sizes mimeF (stripSlash srcDir).length (stripSlash srcDir) tree 0
  exact ⟨_, hidx, by rw [hblob]; exact hsum, hcont⟩

/-- Witness for C2 on the concrete two-level tree of the C1 witness. -/
theorem c2_size_coverage_witness :
    ∃ recs : List IndexRec,
      (['a','/','/','0','/','/','2','/','/','t','x','\n',
        'b','/','c','/','/','2','/','/','1','/','/','t','x','\n'] : List Char) =
          renderIndex recs ∧
      sumLens recs = ([7,8,9] : List Byte).length ∧ contiguous 0 recs = true :=
  c2_size_coverage ['d'] [(['a'], .file [7,8]), (['b'], .dir [(['c'], .file [9])])]
    (fun _ => ['t','x']) .absent .absent true [7,8,9]
    ['a','/','/','0','/','/','2','/','/','t','x','\n',
     'b','/','c','/','/','2','/','/','1','/','/','t','x','\n'] rfl

/-- Claim C3.  Overwrite guard: when both destination paths exist as regular
files and `overwrite_existing` is `false`, `create_archive` fails with the
already-exists error and both existing files are left byte-for-byte
unchanged — no output file is created, truncated or removed before the
failure is reported. -/
theorem c3_overwrite_guard (srcDir : List Char) (tree : List (List Char × FsEntry))
    (mimeF : List Char → List Char) (c1 : List Byte) (c2 : List Char) :
    create_archive srcDir tree mimeF (.regular c1) (.regular c2) false =
      ⟨.error .alreadyExists, .regular c1, .regular c2⟩ := rfl

/-- Claim C10.  Destination validation is not atomic: with
`overwrite_existing = true`, an existing regular blob file is removed while
validating the blob path, before the index path is validated; if the index
path then turns out to be occupied by a non-file the call reports an error
but the pre-existing blob file is already gone. -/
theorem c10_validation_not_atomic (srcDir : List Char)
    (tree : List (List Char × FsEntry)) (mimeF : List Char → List Char)
    (c : List Byte) :
    create_archive srcDir tree mimeF (.regular c) .dirOther true =
      ⟨.error .invalidTarget, .absent, .dirOther⟩ := rfl

/-- Counterexample to C6 as stated: with `blobPath` an existing regular file,
`indexPath` a directory and `overwrite_existing = false`, `create_archive`
fails with `AlreadyExists` (the blob path is validated first), not with
`InvalidTarget`. -/
theorem c6_counterexample :
    (create_archive ['d'] [] (fun _ => []) (.regular []) .dirOther false).result =
        .error .alreadyExists ∧
      ArchiveError.alreadyExists ≠ ArchiveError.invalidTarget :=
  ⟨rfl, by decide⟩

/-- Claim C6 (amended).  A destination path occupied by something other than
a regular file or symlink makes `create_archive` fail with `InvalidTarget`
regardless of the overwrite flag, and the occupying entry is not removed —
provided validation reaches that path: the blob path is validated first, so
a failure there (e.g. `AlreadyExists`) takes precedence over the index
path's `InvalidTarget`. -/
theorem c6_invalid_target (srcDir : List Char) (tree : List (List Char × FsEntry))
    (mimeF : List Char → List Char) (bst : PathState (List Byte))
    (ist : PathState (List Char)) (ow : Bool) :
    (create_archive srcDir tree mimeF .dirOther ist ow =
      ⟨.error .invalidTarget, .dirOther, ist⟩) ∧
    ∀ bst1, check_path bst ow = .ok bst1 →
      create_archive srcDir tree mimeF bst .dirOther ow =
        ⟨.error .invalidTarget, bst1, .dirOther⟩ := by
  refine ⟨rfl, fun bst1 hck => ?_⟩
  rw [create_archive, hck]
  rfl

/-- Witness for the amended C6: a directory blob path fails immediately; an
absent blob path with a directory index path fails with `InvalidTarget` and
the directory survives. -/
theorem c6_invalid_target_witness :
    (create_archive ['d'] [] (fun _ => []) .dirOther (.regular ['z']) false =
      ⟨.error .invalidTarget, .dirOther, .regular ['z']⟩) ∧
    create_archive ['d'] [] (fun _ => []) .absent .dirOther false =
      ⟨.error .invalidTarget, .absent, .dirOther⟩ :=
  ⟨(c6_invalid_target ['d'] [] (fun _ => []) .absent (.regular ['z']) false).1,
    (c6_invalid_target ['d'] [] (fun _ => []) .absent (.regular ['z']) false).2 .absent rfl⟩

theorem drop_prefix_slash (base x : List Char) :
    (base ++ '/' :: x).drop (base.length + 1) = x := by
  have hsplit : base ++ '/' :: x = (base ++ ['/']) ++ x := by simp
  have hlen : base.length + 1 = (base ++ ['/']).length := by simp
  rw [hsplit, hlen, List.drop_left]

/-- Claim C5.  Every index record written during a build carries, in its
path field, the file's absolute path with the `src_dir` root prefix (one
trailing separator stripped) and the following separator removed: the stored
path is the file's path relative to the archived root, has no leading
separator, and every file of the tree gets such a record. -/
theorem c5_relative_paths (srcDir : List Char) (tree : List (List Char × FsEntry))
    (mimeF : List Char → List Char) (bst : PathState (List Byte))
    (ist : PathState (List Char)) (blob : List Byte) (idxC : List Char)
    (hv : validEntries tree = true)
    (hsrc : (stripSlash srcDir).getLast? ≠ some '/')
    (h : create_archive srcDir tree mimeF bst ist true =
      ⟨.ok (), .regular blob, .regular idxC⟩) :
    ∃ recs : List IndexRec, idxC = renderIndex recs ∧
      (∀ r ∈ recs, ∃ c : List Byte,
        FileAt tree r.path c ∧
        r.path = (stripSlash srcDir ++ '/' :: r.path).drop
          ((stripSlash srcDir).length + 1) ∧
        r.path.head? ≠ some '/') ∧
      ∀ rp c, FileAt tree rp c → ∃ r ∈ recs, r.path = rp := by
  obtain ⟨hblob, hidx⟩ := create_archive_ok h
  obtain ⟨hA, hB, hC⟩ := concat_complete mimeF (stripSlash srcDir) hsrc tree 0 hv
  refine ⟨_, hidx, ?_, ?_⟩
  · intro r hr
    obtain ⟨⟨rp, c, hf, hrpath⟩, _⟩ := hB r hr
    rw [joinRel_nil] at hrpath
    subst hrpath
    obtain ⟨_, _, _, hhead⟩ := fileAt_wf hv hf
    exact ⟨c, hf, (drop_prefix_slash _ _).symm, hhead⟩
  · intro rp c hf
    obtain ⟨r, hrmem, hrpath, _, _, _⟩ := hA rp c hf
    rw [joinRel_nil] at hrpath
    exact ⟨r, hrmem, hrpath⟩

/-- Witness for C5 on the concrete two-level tree of the C1 witness. -/
theorem c5_relative_paths_witness :
    ∃ recs : List IndexRec,
      (['a','/','/','0','/','/','2','/','/','t','x','\n',
        'b','/','c','/','/','2','/','/','1','/','/','t','x','\n'] : List Char) =
          renderIndex recs ∧
      (∀ r ∈ recs, ∃ c : List Byte,
        FileAt [(['a'], .file [7,8]), (['b'], .dir [(['c'], .file [9])])] r.path c ∧
        r.path = (stripSlash ['d'] ++ '/' :: r.path).drop
          ((stripSlash ['d']).length + 1) ∧
        r.path.head? ≠ some '/') ∧
      ∀ rp c, FileAt [(['a'], .file [7,8]), (['b'], .dir [(['c'], .file [9])])] rp c →
        ∃ r ∈ recs, r.path = rp :=
  c5_relative_paths ['d'] [(['a'], .file [7,8]), (['b'], .dir [(['c'], .file [9])])]
    (fun _ => ['t','x']) .absent .absent [7,8,9]
    ['a','/','/','0','/','/','2','/','/','t','x','\n',
     'b','/','c','/','/','2','/','/','1','/','/','t','x','\n']
    (by decide) (by decide) rfl

/-- Counterexample to C4 as stated: an index line with five fields (field
count ≠ 4) does not make `AssetIndexer::new` fail — the extra field is
silently ignored and parsing succeeds. -/
theorem c4_counterexample :
    (parseIndex ['a','/','/','1','/','/','2','/','/','m','/','/','x']).isSome = true := by
  decide

/-- Claim C4 (amended).  A line with fewer than four fields, or whose offset
or length field does not parse as a `u64`, makes `AssetIndexer::new` panic
(a failing `unwrap` or an out-of-bounds `fields[i]`, modelled as `none`):
there is no typed `MalformedIndex` error, the whole parse aborts.  Lines
with more than four fields are accepted, the extra fields ignored. -/
theorem c4_malformed_aborts {content l : List Char}
    (hmem : l ∈ rustLines content)
    (hbad : (splitOnDelim l).length < 4 ∨
      parseU64 ((splitOnDelim l).getD 1 []) = none ∨
      parseU64 ((splitOnDelim l).getD 2 []) = none) :
    parseIndex content = none := by
  rw [parseIndex]
  apply parseIndexGo_none hmem
  rcases hsp : splitOnDelim l with _ | ⟨p, _ | ⟨f1, _ | ⟨f2, _ | ⟨f3, rest⟩⟩⟩⟩ <;>
    simp only [parseLine, hsp]
  rw [hsp] at hbad
  simp only [List.length_cons, List.getD_cons_succ, List.getD_cons_zero] at hbad
  rcases hbad with h1 | h2 | h3
  · omega
  · rw [h2]
  · rw [h3]
    cases parseU64 f1 <;> rfl

/-- Witness for the amended C4: a two-field line aborts the parse of the
whole index text. -/
theorem c4_malformed_aborts_witness :
    parseIndex ['a','/','/','1','/','/','2','/','/','m','\n','x','/','/','y'] = none :=
  c4_malformed_aborts (l := ['x','/','/','y']) (by decide) (by decide)

/-- Claim C7.  Duplicate paths, last wins: the map produced by
`AssetIndexer::new` answers every lookup with the Asset of the last parsed
line carrying that path (insertions into the map overwrite earlier entries;
duplication raises no error). -/
theorem c7_duplicate_last_wins {content : List Char} {m : AssetMap}
    (h : parseIndex content = some m) (p : List Char) :
    locateAsset m p = findLast ((rustLines content).filterMap parseLine) p := by
  rw [parseIndex] at h
  rw [locateAsset, parseIndexGo_lookup h p]
  cases findLast ((rustLines content).filterMap parseLine) p <;> rfl

/-- Witness for C7: an index with two lines for path `a`; the parse succeeds
and the lookup answers with the second line's asset. -/
theorem c7_duplicate_last_wins_witness :
    ∃ m, parseIndex
        ['a','/','/','1','/','/','2','/','/','m','\n',
         'a','/','/','3','/','/','4','/','/','n','\n'] = some m ∧
      locateAsset m ['a'] = some ⟨3, 4, ['n']⟩ := by
  have hs : (parseIndex
      ['a','/','/','1','/','/','2','/','/','m','\n',
       'a','/','/','3','/','/','4','/','/','n','\n']).isSome = true := by decide
  refine ⟨_, (Option.some_get hs).symm, ?_⟩
  rw [c7_duplicate_last_wins (Option.some_get hs).symm ['a']]
  decide

/-- Counterexample to C8 as stated: an index text whose interior contains an
empty line makes `AssetIndexer::new` fail (the empty line is split like any
other line, yields a single field, and `fields[1]` panics), even though
every non-empty line is well formed. -/
theorem c8_counterexample :
    parseIndex ['a','/','/','0','/','/','1','/','/','m','\n','\n',
      'b','/','/','0','/','/','1','/','/','m'] = none := rfl

/-- Claim C8 (amended).  Every line, empty ones included, is split into
fields; an interior empty line yields a single empty field and aborts the
parse.  Only the final trailing newline is harmless, because `lines()` does
not produce an empty segment after the terminator. -/
theorem c8_empty_line_aborts {content : List Char}
    (h : [] ∈ rustLines content) :
    parseIndex content = none := by
  rw [parseIndex]
  exact parseIndexGo_none h rfl emptyA

/-- Witness for the amended C8. -/
theorem c8_empty_line_aborts_witness :
    parseIndex ['x','\n','\n','b','/','/','1','/','/','2','/','/','m'] = none :=
  c8_empty_line_aborts (by decide)

/-- Claim C9.  Missing lookup: when no parsed line carries exactly the path
`p`, `locate_asset` returns `none` — lookup is exact string matching with no
partial or prefix matching (the map, a pure function here, is never
mutated by lookups). -/
theorem c9_missing_lookup {content : List Char} {m : AssetMap} {p : List Char}
    (h : parseIndex content = some m)
    (habs : ∀ r ∈ (rustLines content).filterMap parseLine, r.1 ≠ p) :
    locateAsset m p = none := by
  rw [parseIndex] at h
  rw [locateAsset, parseIndexGo_lookup h p, findLast_eq_none habs]
  rfl

/-- Witness for C9: `ab` is a strict prefix of the only stored path `abc`
and the lookup misses. -/
theorem c9_missing_lookup_witness :
    ∃ m, parseIndex ['a','b','c','/','/','1','/','/','2','/','/','m','\n'] = some m ∧
      locateAsset m ['a','b'] = none := by
  have hs : (parseIndex
      ['a','b','c','/','/','1','/','/','2','/','/','m','\n']).isSome = true := by decide
  refine ⟨_, (Option.some_get hs).symm,
    c9_missing_lookup (Option.some_get hs).symm (by decide)⟩

end Monolithica
